import Mathlib

/-!
Shallow embedding of the block-transposition cipher tool `cipher.py`
(classes `Simple_Cipher`, `Block_Transposition_Cipher`, `Stencil`,
`Zigzag`, `Ngraph`) together with proofs of the specified properties.

Texts are modelled as `List Char`, permutations as `List Nat`.
Python 2 semantics are followed: `range(n)` is a fresh list, negative
bounds give empty ranges, and in-place index assignment is `List.set`.
The bare `assert` in `decrypt` and the `ValueError` raised by
`Zigzag.__init__` are modelled as values of the error type
`CipherError` (named after the spec's error vocabulary).
-/

namespace CryptoUSF

/-- Errors of the cipher engine, named after the spec's error kinds.
`MisalignedBlock` models the `assert remainder == 0` failure in
`decrypt`; `InvalidKey` models the `ValueError` raised by
`Zigzag.__init__` when the key does not parse. -/
inductive CipherError where
  | MisalignedBlock : CipherError
  | InvalidKey : CipherError
deriving DecidableEq, Repr

instance {ε α : Type} [DecidableEq ε] [DecidableEq α] : DecidableEq (Except ε α) := fun x y =>
  match x, y with
  | Except.error e1, Except.error e2 => decidable_of_iff (e1 = e2) (by simp)
  | Except.error _, Except.ok _ => isFalse (by simp)
  | Except.ok _, Except.error _ => isFalse (by simp)
  | Except.ok a, Except.ok b => decidable_of_iff (a = b) (by simp)

/-- The plaintext alphabet `Simple_Cipher.pt_alphabet`:
the 26 uppercase Latin letters. -/
def pt_alphabet : List Char :=
  ['A','B','C','D','E','F','G','H','I','J','K','L','M',
   'N','O','P','Q','R','S','T','U','V','W','X','Y','Z']

/-- Embedding of `Simple_Cipher.preprocess`: uppercase the text, keep
characters of the alphabet, keep a space only when `removeSpaces` is
false, and silently drop everything else. -/
def preprocess (removeSpaces : Bool) (plainText : List Char) : List Char :=
  (plainText.map Char.toUpper).filter
    (fun c => pt_alphabet.contains c || (c == ' ' && !removeSpaces))

/-- Embedding of `Block_Transposition_Cipher.inverse_permutation`:
start from `ip = range(len(permutation))` and perform the in-place
writes `ip[permutation[value]] = permutation[indx]` for each
`(indx, value)` produced by `enumerate(permutation)`. -/
def inverse_permutation (permutation : List Nat) : List Nat :=
  permutation.enum.foldl
    (fun ip iv => ip.set (permutation.getD iv.2 0) (permutation.getD iv.1 0))
    (List.range permutation.length)

/-- Embedding of `Block_Transposition_Cipher.encrypt` for a cipher whose
`transposition_permutation` is `tp`.  The random draws
`random.choice(self.pt_alphabet)` of the padding loop are supplied by
the injected source `rand` (draw `i` of the loop is `rand i`). -/
def encrypt (tp : List Nat) (rand : Nat → Char) (plainText : List Char) : List Char :=
  let pt := preprocess true plainText
  let block_size := tp.length
  let blocks := pt.length / block_size
  let remainder := pt.length % block_size
  let pad_chars := (List.range (block_size - remainder)).map rand
  let pt2 := if remainder ≠ 0 then pt ++ pad_chars else pt
  let blocks2 := if remainder ≠ 0 then blocks + 1 else blocks
  (List.range blocks2).flatMap
    (fun b => tp.map (fun position => pt2.getD (position + b * block_size) 'A'))

/-- Embedding of `Block_Transposition_Cipher.decrypt`: check block
alignment (`assert remainder == 0`), then read each block through the
inverse permutation. -/
def decrypt (tp : List Nat) (cipherText : List Char) : Except CipherError (List Char) :=
  let block_size := tp.length
  let blocks := cipherText.length / block_size
  let remainder := cipherText.length % block_size
  if remainder ≠ 0 then
    Except.error CipherError.MisalignedBlock
  else
    let ip := inverse_permutation tp
    Except.ok ((List.range blocks).flatMap
      (fun b => ip.map (fun position => cipherText.getD (position + b * block_size) 'A')))

/-- The fixed `Stencil.transposition_permutation` table. -/
def stencil_transposition : List Nat :=
  [9,0,18,1,10,2,19,27,3,28,20,29,11,4,12,5,30,13,
   31,14,21,32,22,33,15,6,16,23,17,7,24,34,25,8,26,35]

/-- Embedding of the grid-building part of `Zigzag.__init__`: start from
`range(width * height)` and write `x*height + y` at index `y_*width + x`
for every column `x` and row `y`, zigging up on odd columns.  Heights
and widths are Python ints; a nonpositive loop bound gives an empty
loop, exactly as Python 2 `range` does. -/
def zigzagPermutation (height width : Int) : List Nat :=
  (List.range width.toNat).foldl
    (fun acc x =>
      (List.range height.toNat).foldl
        (fun acc2 y =>
          let y2 := if x % 2 = 1 then height.toNat - y - 1 else y
          acc2.set (y2 * width.toNat + x) (x * height.toNat + y))
        acc)
    (List.range (width * height).toNat)

/-- Python-style single-character split: `splitOnChar 'x' "5x4"` gives
the pieces `["5", "4"]`, and separators at the ends or adjacent to each
other produce empty pieces, as `str.split('x')` does. -/
def splitOnChar (sep : Char) : List Char → List (List Char)
  | [] => [[]]
  | c :: rest =>
    let r := splitOnChar sep rest
    if c == sep then [] :: r
    else
      match r with
      | [] => [[c]]
      | h :: t => (c :: h) :: t

/-- Decimal digits parser used to model Python `int()`: a nonempty
all-digit string maps to its value, anything else is a parse failure. -/
def parseDecimal (s : List Char) : Option Nat :=
  if s.isEmpty then none
  else
    s.foldl
      (fun acc c =>
        match acc with
        | none => none
        | some n => if c.isDigit then some (10 * n + (c.toNat - 48)) else none)
      (some 0)

/-- Model of Python `int(s)` as used on the key pieces: an optional
sign followed by at least one decimal digit. -/
def pyParseInt (s : List Char) : Option Int :=
  match s with
  | '-' :: rest => (parseDecimal rest).map (fun n => -(n : Int))
  | '+' :: rest => (parseDecimal rest).map (fun n => (n : Int))
  | _ => (parseDecimal s).map (fun n => (n : Int))

/-- The `try` block of `Zigzag.__init__`: split the key on `'x'`,
require exactly two pieces, and parse each as a Python int. -/
def parseKey (key : List Char) : Option (Int × Int) :=
  match splitOnChar 'x' key with
  | [hs, ws] =>
    match pyParseInt hs, pyParseInt ws with
    | some height, some width => some (height, width)
    | _, _ => none
  | _ => none

/-- Embedding of `Zigzag.__init__`: any parse failure raises
`ValueError` (modelled as `InvalidKey`); otherwise the zigzag grid
permutation is built from the parsed height and width. -/
def zigzagInit (key : List Char) : Except CipherError (List Nat) :=
  match parseKey key with
  | some (height, width) => Except.ok (zigzagPermutation height width)
  | none => Except.error CipherError.InvalidKey

/-- One step of the dictionary update in `Ngraph.analyze`: increment the
count of `nary` if present, otherwise insert it with count 1.  The
dictionary is modelled as an association list. -/
def dictIncr (result : List (List Char × Nat)) (nary : List Char) :
    List (List Char × Nat) :=
  if result.any (fun kv => kv.1 == nary) then
    result.map (fun kv => if kv.1 == nary then (kv.1, kv.2 + 1) else kv)
  else result ++ [(nary, 1)]

/-- Embedding of `Ngraph.analyze`: iterate `i` over
`range(len(text) - n - 1)` (truncated subtraction models Python 2
`range` of a negative bound being empty) and tally the slice
`text[i:i+n]`. -/
def ngraphAnalyze (n : Nat) (text : List Char) : List (List Char × Nat) :=
  (List.range (text.length - n - 1)).foldl
    (fun result i => dictIncr result ((text.drop i).take n))
    []

/-- Total count mass of an n-gram table. -/
def sumCounts (result : List (List Char × Nat)) : Nat :=
  (result.map Prod.snd).sum

/-- A list of naturals is a permutation table in the sense of the spec:
no duplicates and every entry below the length, hence (by counting)
every index in `0..B` appears exactly once. -/
def IsPermutation (p : List Nat) : Prop :=
  p.Nodup ∧ ∀ v ∈ p, v < p.length

instance (p : List Nat) : Decidable (IsPermutation p) := by
  unfold IsPermutation; infer_instance

/-- Shared shape of the block loops of `encrypt` and `decrypt`: emit,
block by block, the characters of `s` read through the position table,
with stride `B` between blocks. -/
def blockApply (table : List Nat) (B : Nat) (s : List Char) (n : Nat) : List Char :=
  (List.range n).flatMap
    (fun b => table.map (fun position => s.getD (position + b * B) 'A'))

/-- Row used by the zigzag grid for column `x` and loop row `y`: odd
columns zig up (`height - y - 1`), even columns zig down (`y`). -/
def zy (h x y : Nat) : Nat :=
  if x % 2 = 1 then h - y - 1 else y

/-- The column-major traversal order of the zigzag grid loops: every
pair `(x, y)` with `x < w`, `y < h`, columns outermost. -/
def zigzagGrid (w h : Nat) : List (Nat × Nat) :=
  (List.range w).flatMap (fun x => (List.range h).map (fun y => (x, y)))

/-- The value the zigzag loop leaves at grid index `p`: reading the
finished grid row-major, position `p` sits in column `p % w` at grid
row `p / w`, and holds the plaintext index written there. -/
def zigzagTarget (h w p : Nat) : Nat :=
  (p % w) * h + zy h (p % w) (p / w)

/-! ### Generic facts about folds of in-place writes

Both `inverse_permutation` and the `Zigzag` grid construction are loops
of in-place indexed writes.  The lemmas below characterise the result of
such a loop when every written position carries a well-defined value. -/

theorem getD_set_self {α : Type} (l : List α) (i : Nat) (a d : α) (h : i < l.length) :
    (l.set i a).getD i d = a := by
  rw [List.getD_eq_getElem?_getD, List.getElem?_set_self h]
  rfl

theorem getD_set_ne {α : Type} (l : List α) (i j : Nat) (a d : α) (h : i ≠ j) :
    (l.set i a).getD j d = l.getD j d := by
  rw [List.getD_eq_getElem?_getD, List.getElem?_set_ne h, ← List.getD_eq_getElem?_getD]

theorem length_foldl_set {α β : Type} (posf : β → Nat) (valf : β → α)
    (l : List β) (init : List α) :
    (l.foldl (fun acc x => acc.set (posf x) (valf x)) init).length = init.length := by
  induction l generalizing init with
  | nil => rfl
  | cons c t ih =>
    simp only [List.foldl_cons]
    rw [ih (init.set (posf c) (valf c)), List.length_set]

theorem foldl_set_getD_of_ne {α β : Type} (posf : β → Nat) (valf : β → α)
    (l : List β) (init : List α) (d : α) (p : Nat)
    (h : ∀ c ∈ l, posf c ≠ p) :
    (l.foldl (fun acc x => acc.set (posf x) (valf x)) init).getD p d = init.getD p d := by
  induction l generalizing init with
  | nil => rfl
  | cons c t ih =>
    simp only [List.foldl_cons]
    rw [ih (init.set (posf c) (valf c)) (fun x hx => h x (List.mem_cons_of_mem c hx)),
      getD_set_ne init (posf c) p (valf c) d (h c (List.mem_cons_self c t))]

theorem foldl_set_getD_of_mem {α β : Type} (posf : β → Nat) (valf : β → α)
    (l : List β) (init : List α) (d : α) (b : β)
    (hmem : b ∈ l) (hlt : posf b < init.length)
    (huniq : ∀ c ∈ l, posf c = posf b → valf c = valf b) :
    (l.foldl (fun acc x => acc.set (posf x) (valf x)) init).getD (posf b) d = valf b := by
  induction l generalizing init b with
  | nil => cases hmem
  | cons c t ih =>
    simp only [List.foldl_cons]
    by_cases hpt : ∃ b2 ∈ t, posf b2 = posf b
    · obtain ⟨b2, hb2t, hb2p⟩ := hpt
      have hval : valf b2 = valf b :=
        huniq b2 (List.mem_cons_of_mem c hb2t) hb2p
      rw [← hb2p, ← hval]
      refine ih (init.set (posf c) (valf c)) b2 hb2t ?_ ?_
      · rw [List.length_set, hb2p]
        exact hlt
      · intro x hx hpx
        rw [hb2p] at hpx
        rw [hval]
        exact huniq x (List.mem_cons_of_mem c hx) hpx
    · push_neg at hpt
      have hbc : b = c := by
        rcases List.mem_cons.1 hmem with h1 | h1
        · exact h1
        · exact absurd rfl (hpt b h1)
      subst hbc
      rw [foldl_set_getD_of_ne posf valf t (init.set (posf b) (valf b)) d (posf b) hpt]
      exact getD_set_self init (posf b) (valf b) d hlt

/-- Folding over `enumerate(l)` is folding over the index range, pairing
each index with the corresponding element. -/
theorem enumFrom_foldl {α γ : Type} (d : α) (g : γ → Nat × α → γ) :
    ∀ (l : List α) (k : Nat) (init : γ),
      (l.enumFrom k).foldl g init
        = (List.range l.length).foldl (fun acc j => g acc (k + j, l.getD j d)) init := by
  intro l
  induction l with
  | nil => intro k init; rfl
  | cons a t ih =>
    intro k init
    show (t.enumFrom (k + 1)).foldl g (g init (k, a)) = _
    rw [ih (k + 1) (g init (k, a))]
    conv_rhs => rw [List.length_cons, List.range_succ_eq_map]
    simp only [List.foldl_cons, List.foldl_map]
    have harg : (fun (acc : γ) (j : Nat) => g acc (k + 1 + j, t.getD j d))
        = fun (acc : γ) (j : Nat) => g acc (k + Nat.succ j, (a :: t).getD (Nat.succ j) d) := by
      funext acc j
      have : k + 1 + j = k + Nat.succ j := by omega
      rw [this]
      rfl
    rw [harg]
    rfl

/-! ### Consequences of being a permutation table -/

theorem isPerm_getD_lt {p : List Nat} (hp : IsPermutation p) {i : Nat} (hi : i < p.length) :
    p.getD i 0 < p.length := by
  refine hp.2 (p.getD i 0) ?_
  rw [List.getD_eq_getElem p 0 hi]
  exact List.getElem_mem hi

theorem isPerm_mem_of_lt {p : List Nat} (hp : IsPermutation p) {v : Nat} (hv : v < p.length) :
    v ∈ p := by
  have hsub : p.toFinset ⊆ Finset.range p.length := by
    intro x hx
    exact Finset.mem_range.2 (hp.2 x (List.mem_toFinset.1 hx))
  have hcard : (Finset.range p.length).card ≤ p.toFinset.card := by
    rw [Finset.card_range, List.toFinset_card_of_nodup hp.1]
  have heq := Finset.eq_of_subset_of_card_le hsub hcard
  have : v ∈ p.toFinset := by
    rw [heq]
    exact Finset.mem_range.2 hv
  exact List.mem_toFinset.1 this

theorem isPerm_surj {p : List Nat} (hp : IsPermutation p) {v : Nat} (hv : v < p.length) :
    ∃ j, j < p.length ∧ p.getD j 0 = v := by
  obtain ⟨j, hj, hjv⟩ := List.getElem_of_mem (isPerm_mem_of_lt hp hv)
  exact ⟨j, hj, by rw [List.getD_eq_getElem p 0 hj, hjv]⟩

theorem isPerm_inj {p : List Nat} (hp : IsPermutation p) {i j : Nat}
    (hi : i < p.length) (hj : j < p.length) (h : p.getD i 0 = p.getD j 0) : i = j := by
  rw [List.getD_eq_getElem p 0 hi, List.getD_eq_getElem p 0 hj] at h
  exact (List.Nodup.getElem_inj_iff hp.1).1 h

/-! ### The inversion routine computes the true inverse

The loop writes `ip[P[value]] = P[indx]` with `value = P[indx]`; as
`indx` sweeps the table, `value` sweeps every entry, so position
`P[v]` receives `v` for every `v` below the block size. -/

theorem inverse_permutation_eq_rangeFold (p : List Nat) :
    inverse_permutation p
      = (List.range p.length).foldl
          (fun ip j => ip.set (p.getD (p.getD j 0) 0) (p.getD j 0))
          (List.range p.length) := by
  show (p.enumFrom 0).foldl _ _ = _
  rw [enumFrom_foldl 0 (fun ip iv => ip.set (p.getD iv.2 0) (p.getD iv.1 0)) p 0
    (List.range p.length)]
  have harg : (fun (acc : List Nat) (j : Nat) => acc.set (p.getD (p.getD j 0) 0) (p.getD (0 + j) 0))
      = fun (acc : List Nat) (j : Nat) => acc.set (p.getD (p.getD j 0) 0) (p.getD j 0) := by
    funext acc j
    rw [Nat.zero_add]
  rw [harg]

theorem inverse_permutation_length (p : List Nat) :
    (inverse_permutation p).length = p.length := by
  rw [inverse_permutation_eq_rangeFold,
    length_foldl_set (fun j => p.getD (p.getD j 0) 0) (fun j => p.getD j 0)
      (List.range p.length) (List.range p.length),
    List.length_range]

theorem inverse_permutation_getD {p : List Nat} (hp : IsPermutation p) {i : Nat}
    (hi : i < p.length) :
    (inverse_permutation p).getD (p.getD i 0) 0 = i := by
  obtain ⟨j, hj, hjv⟩ := isPerm_surj hp hi
  rw [inverse_permutation_eq_rangeFold]
  have hgoal := foldl_set_getD_of_mem (fun j => p.getD (p.getD j 0) 0) (fun j => p.getD j 0)
    (List.range p.length) (List.range p.length) 0 j
    (List.mem_range.2 hj)
    (by
      show p.getD (p.getD j 0) 0 < (List.range p.length).length
      rw [List.length_range, hjv]
      exact isPerm_getD_lt hp hi)
    (by
      intro c hc hpc
      have hc2 : c < p.length := List.mem_range.1 hc
      simp only at hpc ⊢
      exact isPerm_inj hp (isPerm_getD_lt hp hc2) (isPerm_getD_lt hp hj) hpc)
  simp only at hgoal
  rw [hjv] at hgoal
  exact hgoal

theorem inverse_permutation_getD_lt {p : List Nat} (hp : IsPermutation p) {i : Nat}
    (hi : i < p.length) :
    (inverse_permutation p).getD i 0 < p.length ∧
      p.getD ((inverse_permutation p).getD i 0) 0 = i := by
  obtain ⟨j, hj, hjv⟩ := isPerm_surj hp hi
  have h1 : (inverse_permutation p).getD i 0 = j := by
    rw [← hjv, inverse_permutation_getD hp hj]
  constructor
  · rw [h1]; exact hj
  · rw [h1, hjv]

/-! ### Block-structured reading -/

theorem blockApply_length (table : List Nat) (B : Nat) (s : List Char) (n : Nat) :
    (blockApply table B s n).length = n * table.length := by
  induction n with
  | zero => simp [blockApply]
  | succ m ih =>
    unfold blockApply at ih ⊢
    rw [List.range_succ, List.flatMap_append, List.length_append, ih]
    simp [Nat.succ_mul]

theorem blockApply_getElem? (table : List Nat) (B : Nat) (s : List Char) (n : Nat)
    (j : Nat) (hj : j < n * table.length) :
    (blockApply table B s n)[j]?
      = some (s.getD (table.getD (j % table.length) 0 + (j / table.length) * B) 'A') := by
  induction n generalizing j with
  | zero => exact absurd hj (by simp)
  | succ m ih =>
    have hB : 0 < table.length := by
      rcases Nat.eq_zero_or_pos table.length with h0 | h0
      · rw [h0, Nat.mul_zero] at hj
        exact absurd hj (Nat.not_lt_zero j)
      · exact h0
    unfold blockApply at ih ⊢
    rw [List.range_succ, List.flatMap_append]
    have hlen : ((List.range m).flatMap
        (fun b => table.map (fun position => s.getD (position + b * B) 'A'))).length
        = m * table.length := blockApply_length table B s m
    by_cases hcase : j < m * table.length
    · rw [List.getElem?_append_left (by rw [hlen]; exact hcase)]
      exact ih j hcase
    · push_neg at hcase
      have hsucc : (m + 1) * table.length = m * table.length + table.length :=
        Nat.succ_mul m table.length
      obtain ⟨r, hrlt, hjr⟩ : ∃ r, r < table.length ∧ j = m * table.length + r :=
        ⟨j - m * table.length, by omega, by omega⟩
      subst hjr
      rw [List.getElem?_append_right (by rw [hlen]; omega), hlen]
      simp only [List.flatMap_cons, List.flatMap_nil, List.append_nil]
      have hidx : m * table.length + r - m * table.length = r := by omega
      rw [hidx, List.getElem?_map, List.getElem?_eq_getElem hrlt]
      have h1 : (m * table.length + r) % table.length = r := by
        rw [Nat.mul_comm m table.length, Nat.mul_add_mod, Nat.mod_eq_of_lt hrlt]
      have h2 : (m * table.length + r) / table.length = m := by
        rw [Nat.mul_comm m table.length, Nat.mul_add_div hB, Nat.div_eq_of_lt hrlt,
          Nat.add_zero]
      rw [h1, h2, ← List.getD_eq_getElem table 0 hrlt]
      rfl

/-- Reading `n` aligned blocks of `s` through a table and then through
its pointwise inverse restores `s`. -/
theorem blockApply_roundtrip (tp : List Nat) (s : List Char) (n : Nat)
    (hp : IsPermutation tp) (hB : 0 < tp.length) (hs : s.length = n * tp.length) :
    blockApply (inverse_permutation tp) tp.length (blockApply tp tp.length s n) n = s := by
  have hiplen : (inverse_permutation tp).length = tp.length := inverse_permutation_length tp
  have hctlen : (blockApply tp tp.length s n).length = n * tp.length :=
    blockApply_length tp tp.length s n
  apply List.ext_getElem?
  intro j
  by_cases hj : j < n * tp.length
  · have hjip : j < n * (inverse_permutation tp).length := by rw [hiplen]; exact hj
    rw [blockApply_getElem? (inverse_permutation tp) tp.length
      (blockApply tp tp.length s n) n j hjip]
    have hmod : j % (inverse_permutation tp).length = j % tp.length := by rw [hiplen]
    have hdiv : j / (inverse_permutation tp).length = j / tp.length := by rw [hiplen]
    rw [hmod, hdiv]
    have hi : j % tp.length < tp.length := Nat.mod_lt j hB
    have hb : j / tp.length < n := (Nat.div_lt_iff_lt_mul hB).2 hj
    obtain ⟨hqlt, hqval⟩ := inverse_permutation_getD_lt hp hi
    set q := (inverse_permutation tp).getD (j % tp.length) 0 with hq
    have hidx : q + (j / tp.length) * tp.length < n * tp.length := by
      have h1 : q + (j / tp.length) * tp.length < tp.length + (j / tp.length) * tp.length :=
        Nat.add_lt_add_right hqlt _
      have h2 : tp.length + (j / tp.length) * tp.length = (j / tp.length + 1) * tp.length := by
        ring
      have h3 : (j / tp.length + 1) * tp.length ≤ n * tp.length :=
        Nat.mul_le_mul_right _ hb
      omega
    have hread : (blockApply tp tp.length s n).getD (q + (j / tp.length) * tp.length) 'A'
        = s.getD (tp.getD ((q + (j / tp.length) * tp.length) % tp.length) 0
            + ((q + (j / tp.length) * tp.length) / tp.length) * tp.length) 'A' := by
      rw [List.getD_eq_getElem?_getD,
        blockApply_getElem? tp tp.length s n _ hidx]
      rfl
    have hmod2 : (q + (j / tp.length) * tp.length) % tp.length = q := by
      rw [Nat.add_mul_mod_self_right, Nat.mod_eq_of_lt hqlt]
    have hdiv2 : (q + (j / tp.length) * tp.length) / tp.length = j / tp.length := by
      rw [Nat.add_mul_div_right _ _ hB, Nat.div_eq_of_lt hqlt, Nat.zero_add]
    rw [hread, hmod2, hdiv2, hqval]
    have hfin : j % tp.length + (j / tp.length) * tp.length = j := Nat.mod_add_div' j tp.length
    rw [hfin, List.getD_eq_getElem s 'A' (by rw [hs]; exact hj),
      List.getElem?_eq_getElem (by rw [hs]; exact hj)]
  · push_neg at hj
    have h1 : (blockApply (inverse_permutation tp) tp.length
        (blockApply tp tp.length s n) n).length ≤ j := by
      rw [blockApply_length, hiplen]; exact hj
    have h2 : s.length ≤ j := by rw [hs]; exact hj
    rw [List.getElem?_eq_none h1, List.getElem?_eq_none h2]

/-! ### Unfolding the cipher operations to block reads -/

theorem encrypt_eq_of_aligned (tp : List Nat) (rand : Nat → Char) (text : List Char)
    (h : (preprocess true text).length % tp.length = 0) :
    encrypt tp rand text
      = blockApply tp tp.length (preprocess true text)
          ((preprocess true text).length / tp.length) := by
  unfold encrypt blockApply
  simp [h]

theorem encrypt_eq_of_padded (tp : List Nat) (rand : Nat → Char) (text : List Char)
    (h : (preprocess true text).length % tp.length ≠ 0) :
    encrypt tp rand text
      = blockApply tp tp.length
          (preprocess true text
            ++ (List.range (tp.length - (preprocess true text).length % tp.length)).map rand)
          ((preprocess true text).length / tp.length + 1) := by
  unfold encrypt blockApply
  simp [h]

theorem decrypt_eq_of_aligned (tp : List Nat) (ct : List Char)
    (h : ct.length % tp.length = 0) :
    decrypt tp ct
      = Except.ok (blockApply (inverse_permutation tp) tp.length ct
          (ct.length / tp.length)) := by
  unfold decrypt blockApply
  simp [h]

/-- Characters of the plaintext alphabet are their own uppercase form. -/
theorem toUpper_mem_alphabet : ∀ c ∈ pt_alphabet, c.toUpper = c := by decide

/-- Preprocessing a text that is already made of alphabet symbols only
leaves it unchanged. -/
theorem preprocess_filtered (text : List Char) (ht : ∀ c ∈ text, c ∈ pt_alphabet) :
    preprocess true text = text := by
  unfold preprocess
  have hmap : text.map Char.toUpper = text := by
    induction text with
    | nil => rfl
    | cons a t ih =>
      rw [List.map_cons, toUpper_mem_alphabet a (ht a (List.mem_cons_self a t)),
        ih (fun c hc => ht c (List.mem_cons_of_mem a hc))]
  rw [hmap]
  apply List.filter_eq_self.2
  intro a ha
  simp [ht a ha]

/-! ### Claim theorems for the transposition engine -/

/-- C1: for every bijective permutation table and every filtered text
(alphabet symbols only) whose length is an exact multiple of the block
size, decrypting the encryption returns the text unchanged, whatever
the injected padding source does. -/
theorem C1_roundtrip_aligned (tp : List Nat) (rand : Nat → Char) (text : List Char)
    (hp : IsPermutation tp) (ht : ∀ c ∈ text, c ∈ pt_alphabet)
    (halign : text.length % tp.length = 0) :
    decrypt tp (encrypt tp rand text) = Except.ok text := by
  have hpre : preprocess true text = text := preprocess_filtered text ht
  rcases Nat.eq_zero_or_pos tp.length with hB | hB
  · have htp : tp = [] := List.length_eq_zero.1 hB
    have htext : text = [] := by
      apply List.length_eq_zero.1
      rw [hB, Nat.mod_zero] at halign
      exact halign
    subst htp
    subst htext
    have he : encrypt [] rand [] = [] := by
      rw [encrypt_eq_of_aligned [] rand [] (by decide)]
      rfl
    rw [he]
    decide
  · rw [encrypt_eq_of_aligned tp rand text (by rw [hpre]; exact halign), hpre]
    have hslen : text.length = (text.length / tp.length) * tp.length :=
      (Nat.div_mul_cancel (Nat.dvd_of_mod_eq_zero halign)).symm
    have hctlen : (blockApply tp tp.length text (text.length / tp.length)).length
        = (text.length / tp.length) * tp.length :=
      blockApply_length tp tp.length text (text.length / tp.length)
    rw [decrypt_eq_of_aligned tp _ (by rw [hctlen]; exact Nat.mul_mod_left _ _)]
    have hn : (blockApply tp tp.length text (text.length / tp.length)).length / tp.length
        = text.length / tp.length := by
      rw [hctlen]
      exact Nat.mul_div_cancel _ hB
    rw [hn]
    exact congrArg Except.ok
      (blockApply_roundtrip tp text (text.length / tp.length) hp hB hslen)

/-- C1 witness: a concrete aligned round trip through the block size 2
swap permutation. -/
theorem C1_roundtrip_aligned_witness :
    decrypt [1, 0] (encrypt [1, 0] (fun _ => 'A') ['H', 'I', 'Y', 'O']) =
      Except.ok ['H', 'I', 'Y', 'O'] :=
  C1_roundtrip_aligned [1, 0] (fun _ => 'A') ['H', 'I', 'Y', 'O']
    (by decide) (by decide) (by decide)

/-- C2: inverting a bijective permutation table yields a table of the
same length satisfying the inverse law `Q[P[i]] = i` for every index of
the block (the source table is a pure value here, so it is trivially
left unchanged). -/
theorem C2_inverse_permutation_spec (p : List Nat) (hp : IsPermutation p) :
    (inverse_permutation p).length = p.length ∧
      ∀ i < p.length, (inverse_permutation p).getD (p.getD i 0) 0 = i :=
  ⟨inverse_permutation_length p, fun _ hi => inverse_permutation_getD hp hi⟩

/-- C2 witness: the inverse law evaluated on the concrete permutation
`[2, 0, 1]`. -/
theorem C2_inverse_permutation_spec_witness :
    (inverse_permutation [2, 0, 1]).length = 3 ∧
      (inverse_permutation [2, 0, 1]).getD ([2, 0, 1].getD 0 0) 0 = 0 :=
  ⟨(C2_inverse_permutation_spec [2, 0, 1] (by decide)).1,
    (C2_inverse_permutation_spec [2, 0, 1] (by decide)).2 0 (by decide)⟩

/-- C3: for a bijective permutation table and a filtered text whose
length leaves remainder `r` (`0 < r < B`), decrypting the encryption
yields the text followed by exactly `B - r` padding symbols, all drawn
from the alphabet, for every possible choice of the random draws. -/
theorem C3_roundtrip_padded (tp : List Nat) (rand : Nat → Char) (text : List Char)
    (hp : IsPermutation tp) (ht : ∀ c ∈ text, c ∈ pt_alphabet)
    (hrand : ∀ i, rand i ∈ pt_alphabet)
    (hr0 : 0 < text.length % tp.length) (hrB : text.length % tp.length < tp.length) :
    ∃ pad : List Char,
      decrypt tp (encrypt tp rand text) = Except.ok (text ++ pad) ∧
      pad.length = tp.length - text.length % tp.length ∧
      ∀ c ∈ pad, c ∈ pt_alphabet := by
  have hpre : preprocess true text = text := preprocess_filtered text ht
  have hB : 0 < tp.length := Nat.lt_of_le_of_lt (Nat.zero_le _) hrB
  refine ⟨(List.range (tp.length - text.length % tp.length)).map rand, ?_, ?_, ?_⟩
  · rw [encrypt_eq_of_padded tp rand text (by rw [hpre]; omega), hpre]
    set s := text ++ (List.range (tp.length - text.length % tp.length)).map rand with hsdef
    have hdm : tp.length * (text.length / tp.length) + text.length % tp.length
        = text.length := Nat.div_add_mod text.length tp.length
    have hslen : s.length = (text.length / tp.length + 1) * tp.length := by
      rw [hsdef, List.length_append, List.length_map, List.length_range, Nat.succ_mul,
        Nat.mul_comm (text.length / tp.length) tp.length]
      omega
    have hctlen : (blockApply tp tp.length s (text.length / tp.length + 1)).length
        = (text.length / tp.length + 1) * tp.length :=
      blockApply_length tp tp.length s (text.length / tp.length + 1)
    rw [decrypt_eq_of_aligned tp _ (by rw [hctlen]; exact Nat.mul_mod_left _ _)]
    have hn : (blockApply tp tp.length s (text.length / tp.length + 1)).length / tp.length
        = text.length / tp.length + 1 := by
      rw [hctlen]
      exact Nat.mul_div_cancel _ hB
    rw [hn]
    exact congrArg Except.ok
      (blockApply_roundtrip tp s (text.length / tp.length + 1) hp hB hslen)
  · rw [List.length_map, List.length_range]
  · intro c hc
    rw [List.mem_map] at hc
    obtain ⟨i, _, rfl⟩ := hc
    exact hrand i

/-- C3 witness: a length 3 text under the block size 2 swap picks up one
alphabet padding symbol, which decryption returns verbatim. -/
theorem C3_roundtrip_padded_witness :
    ∃ pad : List Char,
      decrypt [1, 0] (encrypt [1, 0] (fun _ => 'Q') ['H', 'I', 'Y']) =
        Except.ok (['H', 'I', 'Y'] ++ pad) ∧
      pad.length = 1 ∧
      ∀ c ∈ pad, c ∈ pt_alphabet :=
  C3_roundtrip_padded [1, 0] (fun _ => 'Q') ['H', 'I', 'Y']
    (by decide) (by decide)
    (by intro i; show 'Q' ∈ pt_alphabet; decide)
    (by decide) (by decide)

/-- C5: decrypting a ciphertext whose length is not a multiple of the
block size fails with `MisalignedBlock` (the modelled `assert`) and
returns no output at all. -/
theorem C5_decrypt_misaligned (tp : List Nat) (ct : List Char)
    (_hp : IsPermutation tp) (h : ct.length % tp.length ≠ 0) :
    decrypt tp ct = Except.error CipherError.MisalignedBlock := by
  unfold decrypt
  simp [h]

/-- C5 witness: a single character is not block aligned for block size
2, so decryption fails. -/
theorem C5_decrypt_misaligned_witness :
    decrypt [1, 0] ['A'] = Except.error CipherError.MisalignedBlock :=
  C5_decrypt_misaligned [1, 0] ['A'] (by decide) (by decide)

/-- C10: the ciphertext length is always the block size times the
ceiling of the filtered length over the block size; in particular it is
always block aligned, so the output of `encrypt` satisfies the
alignment precondition of `decrypt`. -/
theorem C10_encrypt_length (tp : List Nat) (rand : Nat → Char) (text : List Char)
    (_hp : IsPermutation tp) :
    (encrypt tp rand text).length
        = tp.length * (((preprocess true text).length + tp.length - 1) / tp.length) ∧
      (encrypt tp rand text).length % tp.length = 0 := by
  rcases Nat.eq_zero_or_pos tp.length with hB | hB
  · by_cases hr : (preprocess true text).length % tp.length = 0
    · rw [encrypt_eq_of_aligned tp rand text hr, blockApply_length, hB]
      constructor <;> simp
    · rw [encrypt_eq_of_padded tp rand text hr, blockApply_length, hB]
      constructor <;> simp
  · have hdm : tp.length * ((preprocess true text).length / tp.length)
        + (preprocess true text).length % tp.length
        = (preprocess true text).length :=
      Nat.div_add_mod (preprocess true text).length tp.length
    by_cases hr : (preprocess true text).length % tp.length = 0
    · rw [encrypt_eq_of_aligned tp rand text hr, blockApply_length]
      constructor
      · have hceil : ((preprocess true text).length + tp.length - 1) / tp.length
            = (preprocess true text).length / tp.length := by
          have h1 : (preprocess true text).length + tp.length - 1
              = tp.length * ((preprocess true text).length / tp.length)
                + (tp.length - 1) := by omega
          rw [h1, Nat.mul_add_div hB,
            Nat.div_eq_of_lt (show tp.length - 1 < tp.length by omega), Nat.add_zero]
        rw [hceil, Nat.mul_comm]
      · exact Nat.mul_mod_left _ _
    · rw [encrypt_eq_of_padded tp rand text hr, blockApply_length]
      have hrlt : (preprocess true text).length % tp.length < tp.length :=
        Nat.mod_lt _ hB
      constructor
      · have hceil : ((preprocess true text).length + tp.length - 1) / tp.length
            = (preprocess true text).length / tp.length + 1 := by
          have h2 : tp.length * ((preprocess true text).length / tp.length + 1)
              = tp.length * ((preprocess true text).length / tp.length) + tp.length := by
            rw [Nat.mul_add, Nat.mul_one]
          have h1 : (preprocess true text).length + tp.length - 1
              = tp.length * ((preprocess true text).length / tp.length + 1)
                + ((preprocess true text).length % tp.length - 1) := by omega
          rw [h1, Nat.mul_add_div hB,
            Nat.div_eq_of_lt
              (show (preprocess true text).length % tp.length - 1 < tp.length by omega),
            Nat.add_zero]
        rw [hceil, Nat.mul_comm]
      · exact Nat.mul_mod_left _ _

/-- C10 witness: three filtered characters under block size 2 encrypt to
four ciphertext characters, an exact multiple of the block size. -/
theorem C10_encrypt_length_witness :
    (encrypt [1, 0] (fun _ => 'A') ['H', 'I', 'Y']).length = 2 * ((3 + 2 - 1) / 2) ∧
      (encrypt [1, 0] (fun _ => 'A') ['H', 'I', 'Y']).length % 2 = 0 :=
  C10_encrypt_length [1, 0] (fun _ => 'A') ['H', 'I', 'Y'] (by decide)

/-! ### The zigzag grid loop builds a bijection -/

theorem zy_lt (h x y : Nat) (_hh : 0 < h) (hy : y < h) : zy h x y < h := by
  unfold zy
  split <;> omega

theorem zy_invol (h x y : Nat) (hy : y < h) : zy h x (zy h x y) = y := by
  unfold zy
  by_cases hc : x % 2 = 1
  · rw [if_pos hc, if_pos hc]
    omega
  · rw [if_neg hc, if_neg hc]

theorem mem_zigzagGrid (w h : Nat) (xy : Nat × Nat) :
    xy ∈ zigzagGrid w h ↔ xy.1 < w ∧ xy.2 < h := by
  unfold zigzagGrid
  rcases xy with ⟨x, y⟩
  simp [List.mem_flatMap, List.mem_map, List.mem_range, Prod.ext_iff]

theorem foldl_flatMap_pairs {γ : Type} (g : γ → Nat → Nat → γ) (w h : Nat) (init : γ) :
    (zigzagGrid w h).foldl (fun acc xy => g acc xy.1 xy.2) init
      = (List.range w).foldl
          (fun acc x => (List.range h).foldl (fun acc2 y => g acc2 x y) acc) init := by
  unfold zigzagGrid
  induction w generalizing init with
  | zero => rfl
  | succ m ih =>
    rw [List.range_succ, List.flatMap_append, List.foldl_append, ih, List.foldl_append]
    simp only [List.flatMap_cons, List.flatMap_nil, List.append_nil, List.foldl_map,
      List.foldl_cons, List.foldl_nil]

theorem zigzagPermutation_eq_fold (h w : Nat) :
    zigzagPermutation (↑h : Int) (↑w : Int)
      = (zigzagGrid w h).foldl
          (fun acc xy => acc.set (zy h xy.1 xy.2 * w + xy.1) (xy.1 * h + xy.2))
          (List.range (w * h)) := by
  unfold zigzagPermutation
  have h1 : ((↑h : Int)).toNat = h := Int.toNat_natCast h
  have h2 : ((↑w : Int)).toNat = w := Int.toNat_natCast w
  have h3 : ((↑w : Int) * (↑h : Int)).toNat = w * h := by
    rw [← Int.natCast_mul, Int.toNat_natCast]
  simp only [h1, h2, h3]
  rw [← foldl_flatMap_pairs
    (fun acc x y => acc.set ((if x % 2 = 1 then h - y - 1 else y) * w + x) (x * h + y)) w h
    (List.range (w * h))]
  rfl

theorem zigzagPermutation_length (h w : Nat) :
    (zigzagPermutation (↑h : Int) (↑w : Int)).length = w * h := by
  rw [zigzagPermutation_eq_fold,
    length_foldl_set (fun xy => zy h xy.1 xy.2 * w + xy.1)
      (fun xy => xy.1 * h + xy.2) (zigzagGrid w h) (List.range (w * h)),
    List.length_range]

theorem zigzag_getD (h w : Nat) (hh : 0 < h) (hw : 0 < w) (p : Nat) (hp2 : p < w * h) :
    (zigzagPermutation (↑h : Int) (↑w : Int)).getD p 0 = zigzagTarget h w p := by
  rw [zigzagPermutation_eq_fold]
  have hx : p % w < w := Nat.mod_lt p hw
  have hyr : p / w < h := by
    rw [Nat.div_lt_iff_lt_mul hw]
    rw [Nat.mul_comm]
    exact hp2
  have hy : zy h (p % w) (p / w) < h := zy_lt h (p % w) (p / w) hh hyr
  have hpos : zy h (p % w) (zy h (p % w) (p / w)) * w + p % w = p := by
    rw [zy_invol h (p % w) (p / w) hyr, Nat.mul_comm]
    exact Nat.div_add_mod p w
  have hgoal := foldl_set_getD_of_mem
    (fun xy => zy h xy.1 xy.2 * w + xy.1) (fun xy => xy.1 * h + xy.2)
    (zigzagGrid w h) (List.range (w * h)) 0 (p % w, zy h (p % w) (p / w))
    ((mem_zigzagGrid w h (p % w, zy h (p % w) (p / w))).2 ⟨hx, hy⟩)
    (by
      show zy h (p % w) (zy h (p % w) (p / w)) * w + p % w < (List.range (w * h)).length
      rw [List.length_range, hpos]
      exact hp2)
    (by
      rintro ⟨x2, y2⟩ hc hpc
      have hx2 : x2 < w := ((mem_zigzagGrid w h (x2, y2)).1 hc).1
      have hy2 : y2 < h := ((mem_zigzagGrid w h (x2, y2)).1 hc).2
      simp only at hpc ⊢
      rw [hpos] at hpc
      have hzy2 : zy h x2 y2 < h := zy_lt h x2 y2 hh hy2
      have e1 : x2 = p % w := by
        have : (x2 + zy h x2 y2 * w) % w = x2 % w := Nat.add_mul_mod_self_right x2 _ w
        rw [Nat.mod_eq_of_lt hx2] at this
        rw [← this, Nat.add_comm, hpc]
      have e2 : zy h x2 y2 = p / w := by
        have : (x2 + zy h x2 y2 * w) / w = x2 / w + zy h x2 y2 :=
          Nat.add_mul_div_right x2 _ hw
        rw [Nat.div_eq_of_lt hx2, Nat.zero_add] at this
        rw [← this, Nat.add_comm, hpc]
      have e3 : y2 = zy h x2 (p / w) := by
        rw [← e2, zy_invol h x2 y2 hy2]
      rw [e1, e3, e1])
  simp only at hgoal
  rw [hpos] at hgoal
  rw [hgoal]
  rfl

theorem zigzag_eq_map (h w : Nat) (hh : 0 < h) (hw : 0 < w) :
    zigzagPermutation (↑h : Int) (↑w : Int)
      = (List.range (w * h)).map (zigzagTarget h w) := by
  apply List.ext_getElem?
  intro j
  by_cases hj : j < w * h
  · have hlen : j < (zigzagPermutation (↑h : Int) (↑w : Int)).length := by
      rw [zigzagPermutation_length]
      exact hj
    rw [List.getElem?_eq_getElem hlen, List.getElem?_map,
      List.getElem?_range hj, ← List.getD_eq_getElem _ 0 hlen,
      zigzag_getD h w hh hw j hj]
    rfl
  · push_neg at hj
    rw [List.getElem?_eq_none (by rw [zigzagPermutation_length]; exact hj),
      List.getElem?_eq_none (by rw [List.length_map, List.length_range]; exact hj)]

theorem zigzagTarget_lt (h w : Nat) (hh : 0 < h) (hw : 0 < w) (p : Nat) (hp2 : p < w * h) :
    zigzagTarget h w p < w * h := by
  unfold zigzagTarget
  have hx : p % w < w := Nat.mod_lt p hw
  have hyr : p / w < h := by
    rw [Nat.div_lt_iff_lt_mul hw, Nat.mul_comm]
    exact hp2
  have hy : zy h (p % w) (p / w) < h := zy_lt h (p % w) (p / w) hh hyr
  have h1 : (p % w) * h + zy h (p % w) (p / w) < (p % w + 1) * h := by
    rw [Nat.succ_mul]
    omega
  have h2 : (p % w + 1) * h ≤ w * h := Nat.mul_le_mul_right h (by omega)
  omega

theorem zigzagTarget_surj (h w : Nat) (hh : 0 < h) (hw : 0 < w) (v : Nat) (hv : v < w * h) :
    ∃ p, p < w * h ∧ zigzagTarget h w p = v := by
  have hx : v / h < w := by
    rw [Nat.div_lt_iff_lt_mul hh]
    exact hv
  have hy : v % h < h := Nat.mod_lt v hh
  have hzy : zy h (v / h) (v % h) < h := zy_lt h (v / h) (v % h) hh hy
  refine ⟨zy h (v / h) (v % h) * w + v / h, ?_, ?_⟩
  · have h1 : zy h (v / h) (v % h) * w + v / h < (zy h (v / h) (v % h) + 1) * w := by
      rw [Nat.succ_mul]
      omega
    have h2 : (zy h (v / h) (v % h) + 1) * w ≤ h * w := Nat.mul_le_mul_right w (by omega)
    have h3 : h * w = w * h := Nat.mul_comm h w
    omega
  · unfold zigzagTarget
    have e1 : (zy h (v / h) (v % h) * w + v / h) % w = v / h := by
      rw [Nat.add_comm, Nat.add_mul_mod_self_right, Nat.mod_eq_of_lt hx]
    have e2 : (zy h (v / h) (v % h) * w + v / h) / w = zy h (v / h) (v % h) := by
      rw [Nat.add_comm, Nat.add_mul_div_right _ _ hw, Nat.div_eq_of_lt hx, Nat.zero_add]
    rw [e1, e2, zy_invol h (v / h) (v % h) hy]
    exact Nat.div_add_mod' v h

theorem zigzagTarget_inj (h w : Nat) (hh : 0 < h) (hw : 0 < w)
    (p1 p2 : Nat) (hp1 : p1 < w * h) (hp2 : p2 < w * h)
    (he : zigzagTarget h w p1 = zigzagTarget h w p2) : p1 = p2 := by
  unfold zigzagTarget at he
  have hyr1 : p1 / w < h := by rw [Nat.div_lt_iff_lt_mul hw, Nat.mul_comm]; exact hp1
  have hyr2 : p2 / w < h := by rw [Nat.div_lt_iff_lt_mul hw, Nat.mul_comm]; exact hp2
  have hy1 : zy h (p1 % w) (p1 / w) < h := zy_lt h (p1 % w) (p1 / w) hh hyr1
  have hy2 : zy h (p2 % w) (p2 / w) < h := zy_lt h (p2 % w) (p2 / w) hh hyr2
  have d1 : ((p1 % w) * h + zy h (p1 % w) (p1 / w)) / h = p1 % w := by
    rw [Nat.mul_comm, Nat.mul_add_div hh, Nat.div_eq_of_lt hy1, Nat.add_zero]
  have d2 : ((p2 % w) * h + zy h (p2 % w) (p2 / w)) / h = p2 % w := by
    rw [Nat.mul_comm, Nat.mul_add_div hh, Nat.div_eq_of_lt hy2, Nat.add_zero]
  have m1 : ((p1 % w) * h + zy h (p1 % w) (p1 / w)) % h = zy h (p1 % w) (p1 / w) := by
    rw [Nat.mul_comm, Nat.mul_add_mod, Nat.mod_eq_of_lt hy1]
  have m2 : ((p2 % w) * h + zy h (p2 % w) (p2 / w)) % h = zy h (p2 % w) (p2 / w) := by
    rw [Nat.mul_comm, Nat.mul_add_mod, Nat.mod_eq_of_lt hy2]
  have e1 : p1 % w = p2 % w := by rw [← d1, ← d2, he]
  have e2 : zy h (p1 % w) (p1 / w) = zy h (p2 % w) (p2 / w) := by rw [← m1, ← m2, he]
  have e3 : p1 / w = p2 / w := by
    have := zy_invol h (p1 % w) (p1 / w) hyr1
    rw [e2, e1] at this
    rw [← this, zy_invol h (p2 % w) (p2 / w) hyr2]
  have hd1 := Nat.div_add_mod p1 w
  have hd2 := Nat.div_add_mod p2 w
  have e4 : w * (p1 / w) = w * (p2 / w) := by rw [e3]
  omega

/-! ### Claim theorems for the generators and the analysis tool -/

/-- C6: the Zigzag cipher keyed with the string `5x4` (height 5,
width 4, block size 20) carries exactly the documented permutation. -/
theorem C6_zigzag_5x4_fixture :
    zigzagInit ['5', 'x', '4']
      = Except.ok [0, 9, 10, 19, 1, 8, 11, 18, 2, 7, 12, 17,
                   3, 6, 13, 16, 4, 5, 14, 15] := by decide

/-- C7: every generated permutation is a bijection on its block: the
fixed Stencil table holds every index below 36 exactly once, and for
every positive height and width the Zigzag table has length
`width * height` and holds every index below it exactly once. -/
theorem C7_generators_bijective :
    (∀ v < stencil_transposition.length, stencil_transposition.count v = 1) ∧
      ∀ h w : Nat, 0 < h → 0 < w →
        (zigzagPermutation (↑h : Int) (↑w : Int)).length = w * h ∧
          ∀ v < w * h, (zigzagPermutation (↑h : Int) (↑w : Int)).count v = 1 := by
  constructor
  · decide
  · intro h w hh hw
    refine ⟨zigzagPermutation_length h w, ?_⟩
    intro v hv
    rw [zigzag_eq_map h w hh hw]
    have hnodup : ((List.range (w * h)).map (zigzagTarget h w)).Nodup := by
      refine List.Nodup.map_on ?_ (List.nodup_range (w * h))
      intro p1 hp1 p2 hp2 he
      exact zigzagTarget_inj h w hh hw p1 p2
        (List.mem_range.1 hp1) (List.mem_range.1 hp2) he
    have hmem : v ∈ (List.range (w * h)).map (zigzagTarget h w) := by
      obtain ⟨p, hplt, hpv⟩ := zigzagTarget_surj h w hh hw v hv
      exact List.mem_map.2 ⟨p, List.mem_range.2 hplt, hpv⟩
    exact List.count_eq_one_of_mem hnodup hmem

/-- C7 witness: the 5 by 4 zigzag block has length 20 and contains the
index 7 exactly once. -/
theorem C7_generators_bijective_witness :
    (zigzagPermutation ((5 : Nat) : Int) ((4 : Nat) : Int)).length = 4 * 5 ∧
      (zigzagPermutation ((5 : Nat) : Int) ((4 : Nat) : Int)).count 7 = 1 :=
  ⟨(C7_generators_bijective.2 5 4 (by decide) (by decide)).1,
    (C7_generators_bijective.2 5 4 (by decide) (by decide)).2 7 (by decide)⟩

/-- C8 (amended): `Zigzag.__init__` fails with the modelled
`InvalidKey` exactly when the key does not split on `x` into two
integer-parsable pieces; every key that parses as two integers —
positive or not — constructs successfully, so in particular every key
with positive height and width does. -/
theorem C8_zigzag_key_parsing (key : List Char) :
    (∀ h w : Int, parseKey key = some (h, w) →
        zigzagInit key = Except.ok (zigzagPermutation h w)) ∧
      (parseKey key = none →
        zigzagInit key = Except.error CipherError.InvalidKey) := by
  constructor
  · intro h w hp
    unfold zigzagInit
    rw [hp]
  · intro hp
    unfold zigzagInit
    rw [hp]

/-- C8 counterexample: the key `0x5` parses as height 0 and width 5,
whose product is zero, yet construction succeeds with an empty
permutation instead of failing with `InvalidKey`. -/
theorem C8_zero_area_key_accepted :
    parseKey ['0', 'x', '5'] = some (0, 5) ∧
      zigzagInit ['0', 'x', '5'] = Except.ok [] := by decide

/-- C8 witness: a key without a well-formed `HxW` shape is rejected
with `InvalidKey`. -/
theorem C8_zigzag_key_parsing_witness :
    zigzagInit ['a', 'b'] = Except.error CipherError.InvalidKey :=
  (C8_zigzag_key_parsing ['a', 'b']).2 (by decide)

/-- C4: evaluation at the failing input for the window count.  For
`n = 1` over the four-character text `ABCD`, the analyzer loops over
`range(len(text) - n - 1)` and therefore tallies only the first two
windows, giving total mass 2 where the claim requires
`L - n + 1 = 4` windows. -/
theorem C4_ngraph_missing_last_windows :
    ngraphAnalyze 1 ['A', 'B', 'C', 'D'] = [(['A'], 1), (['B'], 1)] ∧
      sumCounts (ngraphAnalyze 1 ['A', 'B', 'C', 'D']) = 2 := by decide

/-- C9 counterexample: for a window larger than the text the analyzer
does not fail at all — it is a total function and simply returns the
empty table, so no `InvalidWindow` error exists in the code. -/
theorem C9_no_window_validation :
    ngraphAnalyze 5 ['A', 'B'] = [] := by decide

/-- C9 (amended): the analyzer performs no window validation and never
fails; whenever `len(text) <= n + 1` — in particular whenever the
window exceeds the text — it silently returns the empty table. -/
theorem C9_ngraph_total_no_failure (n : Nat) (text : List Char)
    (h : text.length ≤ n + 1) :
    ngraphAnalyze n text = [] := by
  unfold ngraphAnalyze
  have h0 : text.length - n - 1 = 0 := by omega
  rw [h0]
  rfl

/-- C9 witness: a window of 4 over a two-character text yields the
empty table. -/
theorem C9_ngraph_total_no_failure_witness :
    ngraphAnalyze 4 ['C', 'D'] = [] :=
  C9_ngraph_total_no_failure 4 ['C', 'D'] (by decide)

end CryptoUSF
